import Mathlib

/-!
Verification of the Tari storage/configuration layer against its
natural-language specification. The Rust sources are embedded shallowly:
pure functions become Lean functions, the process-global network cell and
the LMDB-backed tables become explicit state passing, machine integers
become `Nat` (no arithmetic in the embedded code can overflow the original
widths within the properties proved), and fallible operations return
`Except`.
-/

namespace Tari

/-! ## Network configuration (src/common/src/configuration/network.rs) -/

/-- Embeds `ConfigurationError` (tari_common): a field name, the offending
value, and a message. -/
structure ConfigurationError where
  field : String
  value : Option String
  message : String
deriving DecidableEq, Repr

/-- Embeds `enum Network { MainNet = 0xaa, TestNet = 0xbb, LocalNet = 0xcc }`. -/
inductive Network where
  | MainNet
  | TestNet
  | LocalNet
deriving DecidableEq, Repr

/-- Embeds `Network::as_byte` (the `repr(u8)` discriminant). -/
def Network.as_byte : Network → Nat
  | .MainNet => 0xaa
  | .TestNet => 0xbb
  | .LocalNet => 0xcc

/-- Embeds `Network::as_key_str`. -/
def Network.as_key_str : Network → String
  | .MainNet => "mainnet"
  | .TestNet => "testnet"
  | .LocalNet => "localnet"

/-- Embeds `Network::default` under the build configuration in which neither
`tari_target_network_mainnet` nor `tari_target_network_nextnet` is set. -/
def Network.default_network : Network := .TestNet

/-- Embeds Rust's `str::to_lowercase` as character-wise lowercasing (the
network key strings are ASCII, where the two coincide). -/
def toLowerAscii (s : String) : String := ⟨s.data.map Char.toLower⟩

/-- Embeds `Network::from_str`: lowercases the input and matches the three
key strings, otherwise builds a `ConfigurationError` exactly as the source
does (original value, message formed from the lowercased string). -/
def Network.from_str (value : String) : Except ConfigurationError Network :=
  let lower := toLowerAscii value
  if lower = "mainnet" then .ok .MainNet
  else if lower = "testnet" then .ok .TestNet
  else if lower = "localnet" then .ok .LocalNet
  else .error ⟨"network", some value, "Invalid network option: " ++ lower⟩

/-- Embeds `TryFrom<u8> for Network`: compares the byte against each
discriminant in turn. -/
def Network.try_from_byte (v : Nat) : Except ConfigurationError Network :=
  if v = Network.MainNet.as_byte then .ok .MainNet
  else if v = Network.TestNet.as_byte then .ok .TestNet
  else if v = Network.LocalNet.as_byte then .ok .LocalNet
  else .error ⟨"network", some (toString v), "Invalid network option: " ++ toString v⟩

/-- Embeds the process-global `static CURRENT_NETWORK: OnceLock<Network>` as
an explicit `Option Network` state threaded through the two accessors. -/
abbrev CurrentNetworkCell := Option Network

/-- Embeds `Network::set_current` (`OnceLock::set`): succeeds and fills the
cell exactly when it is empty; otherwise returns `Err` carrying the rejected
value and leaves the cell unchanged. -/
def Network.set_current (network : Network) (cell : CurrentNetworkCell) :
    Except Network Unit × CurrentNetworkCell :=
  match cell with
  | none => (.ok (), some network)
  | some m => (.error network, some m)

/-- Embeds `Network::get_current_or_user_setting_or_default`: a filled cell
wins unconditionally; an empty cell falls back to the `TARI_NETWORK`
environment variable (parsed with `from_str`, any parse failure replaced by
the default) and finally to the default. The environment is passed
explicitly as `Option String`. -/
def Network.get_current_or_user_setting_or_default (cell : CurrentNetworkCell)
    (env : Option String) : Network :=
  match cell with
  | some n => n
  | none =>
    match env with
    | some s =>
      match Network.from_str s with
      | .ok n => n
      | .error _ => Network.default_network
    | none => Network.default_network

/-- Runs a sequence of `set_current` calls from a given cell state,
recording for each call whether it returned `Ok`. -/
def Network.run_set_calls : List Network → CurrentNetworkCell → List Bool × CurrentNetworkCell
  | [], cell => ([], cell)
  | n :: rest, cell =>
    let r := Network.set_current n cell
    let tail := Network.run_set_calls rest r.2
    ((match r.1 with | .ok _ => true | .error _ => false) :: tail.1, tail.2)

theorem Network.run_set_calls_filled (calls : List Network) (m : Network) :
    (Network.run_set_calls calls (some m)).1.count true = 0 ∧
      (Network.run_set_calls calls (some m)).2 = some m := by
  induction calls with
  | nil => simp [Network.run_set_calls]
  | cons n rest ih =>
    simp [Network.run_set_calls, Network.set_current, List.count_cons, ih]

/-! ## Row data model (src/base_layer/core/src/chain_storage/lmdb_db/mod.rs) -/

/-- Embeds `HashOutput` (tari_common_types): a byte string. -/
abbrev HashOutput := List Nat

/-- Modelled from the spec: the `TransactionOutput` payload (commitment,
range proof, metadata) lives in the transactions module, which is not among
the repository files here; it is abstracted as its byte content. -/
structure TransactionOutput where
  bytes : List Nat
deriving DecidableEq, Repr

/-- Modelled from the spec: the `TransactionInput` spending witness data,
abstracted as its byte content (its module is not among the files here). -/
structure TransactionInput where
  bytes : List Nat
deriving DecidableEq, Repr

/-- Modelled from the spec: the `TransactionKernel` (excess commitment, fee,
signature), abstracted as its byte content (its module is not among the
files here). -/
structure TransactionKernel where
  bytes : List Nat
deriving DecidableEq, Repr

/-- Embeds `struct TransactionOutputRowData` field for field; `u32` and
`u64` become `Nat`. -/
structure TransactionOutputRowData where
  output : Option TransactionOutput
  header_hash : HashOutput
  mmr_position : Nat
  hash : HashOutput
  witness_hash : HashOutput
  mined_height : Nat
deriving DecidableEq, Repr

/-- Embeds `struct TransactionInputRowData` field for field. -/
structure TransactionInputRowData where
  input : TransactionInput
  header_hash : HashOutput
  mmr_position : Nat
  hash : HashOutput
deriving DecidableEq, Repr

/-- Embeds `struct TransactionKernelRowData` field for field. -/
structure TransactionKernelRowData where
  kernel : TransactionKernel
  header_hash : HashOutput
  mmr_position : Nat
  hash : HashOutput
deriving DecidableEq, Repr

/-! ## Row codec

Modelled from the spec: the rows derive `Serialize`/`Deserialize` and the
actual byte codec lives in the LMDB helper module, which is not among the
repository files here. Per the spec's contract the codec writes each field
in declaration order, writes variable-length byte fields length-prefixed,
writes the optional `output` behind an explicit present/absent tag byte,
and `decode` fails with a `CorruptRecord` error whenever the byte layout
does not match. -/

/-- Modelled from the spec: codec failure on a malformed record. -/
inductive CodecError where
  | CorruptRecord
deriving DecidableEq, Repr

/-- Writes one integer field. -/
def encodeNat (n : Nat) : List Nat := [n]

/-- Writes a variable-length byte field, length-prefixed. -/
def encodeBytes (b : List Nat) : List Nat := b.length :: b

/-- Writes the optional pruned payload behind an explicit tag: 0 = absent,
1 = present followed by the payload bytes. -/
def encodeOptOutput : Option TransactionOutput → List Nat
  | none => [0]
  | some o => 1 :: encodeBytes o.bytes

def encodeOutputRow (r : TransactionOutputRowData) : List Nat :=
  encodeOptOutput r.output ++ encodeBytes r.header_hash ++ encodeNat r.mmr_position ++
    encodeBytes r.hash ++ encodeBytes r.witness_hash ++ encodeNat r.mined_height

def encodeInputRow (r : TransactionInputRowData) : List Nat :=
  encodeBytes r.input.bytes ++ encodeBytes r.header_hash ++ encodeNat r.mmr_position ++
    encodeBytes r.hash

def encodeKernelRow (r : TransactionKernelRowData) : List Nat :=
  encodeBytes r.kernel.bytes ++ encodeBytes r.header_hash ++ encodeNat r.mmr_position ++
    encodeBytes r.hash

/-- Reads one integer field. -/
def decodeNat : List Nat → Except CodecError (Nat × List Nat)
  | [] => .error .CorruptRecord
  | n :: rest => .ok (n, rest)

/-- Reads one length-prefixed byte field. -/
def decodeBytes : List Nat → Except CodecError (List Nat × List Nat)
  | [] => .error .CorruptRecord
  | n :: rest =>
    if n ≤ rest.length then .ok (rest.take n, rest.drop n) else .error .CorruptRecord

/-- Reads the optional pruned payload: tag 0 = absent, tag 1 = present. -/
def decodeOptOutput : List Nat → Except CodecError (Option TransactionOutput × List Nat)
  | 0 :: rest => .ok (none, rest)
  | 1 :: rest => do
    let (b, rest') ← decodeBytes rest
    return (some ⟨b⟩, rest')
  | _ => .error .CorruptRecord

def decodeOutputRow (l : List Nat) : Except CodecError TransactionOutputRowData := do
  let (out, l1) ← decodeOptOutput l
  let (hh, l2) ← decodeBytes l1
  let (pos, l3) ← decodeNat l2
  let (h, l4) ← decodeBytes l3
  let (wh, l5) ← decodeBytes l4
  let (mh, l6) ← decodeNat l5
  if l6 = [] then return ⟨out, hh, pos, h, wh, mh⟩ else .error .CorruptRecord

def decodeInputRow (l : List Nat) : Except CodecError TransactionInputRowData := do
  let (ib, l1) ← decodeBytes l
  let (hh, l2) ← decodeBytes l1
  let (pos, l3) ← decodeNat l2
  let (h, l4) ← decodeBytes l3
  if l4 = [] then return ⟨⟨ib⟩, hh, pos, h⟩ else .error .CorruptRecord

def decodeKernelRow (l : List Nat) : Except CodecError TransactionKernelRowData := do
  let (kb, l1) ← decodeBytes l
  let (hh, l2) ← decodeBytes l1
  let (pos, l3) ← decodeNat l2
  let (h, l4) ← decodeBytes l3
  if l4 = [] then return ⟨⟨kb⟩, hh, pos, h⟩ else .error .CorruptRecord

@[simp]
theorem decodeBytes_encodeBytes (b rest : List Nat) :
    decodeBytes (encodeBytes b ++ rest) = .ok (b, rest) := by
  simp [encodeBytes, decodeBytes, List.take_left, List.drop_left]

@[simp]
theorem decodeNat_encodeNat (n : Nat) (rest : List Nat) :
    decodeNat (encodeNat n ++ rest) = .ok (n, rest) := by
  simp [encodeNat, decodeNat]

@[simp]
theorem decodeOptOutput_encodeOptOutput (o : Option TransactionOutput) (rest : List Nat) :
    decodeOptOutput (encodeOptOutput o ++ rest) = .ok (o, rest) := by
  cases o with
  | none => simp [encodeOptOutput, decodeOptOutput]
  | some v =>
    simp only [encodeOptOutput, List.cons_append, List.append_assoc]
    simp [decodeOptOutput]

@[simp]
theorem decodeBytes_encodeBytes_nil (b : List Nat) :
    decodeBytes (encodeBytes b) = .ok (b, []) := by
  simp [encodeBytes, decodeBytes]

@[simp]
theorem decodeNat_encodeNat_nil (n : Nat) :
    decodeNat (encodeNat n) = .ok (n, []) := by
  simp [encodeNat, decodeNat]

theorem decodeOutputRow_encodeOutputRow (r : TransactionOutputRowData) :
    decodeOutputRow (encodeOutputRow r) = .ok r := by
  obtain ⟨out, hh, pos, h, wh, mh⟩ := r
  simp only [encodeOutputRow, List.append_assoc, decodeOutputRow]
  simp [bind, Except.bind, pure, Except.pure]

theorem decodeInputRow_encodeInputRow (r : TransactionInputRowData) :
    decodeInputRow (encodeInputRow r) = .ok r := by
  obtain ⟨⟨ib⟩, hh, pos, h⟩ := r
  simp only [encodeInputRow, List.append_assoc, decodeInputRow]
  simp [bind, Except.bind, pure, Except.pure]

theorem decodeKernelRow_encodeKernelRow (r : TransactionKernelRowData) :
    decodeKernelRow (encodeKernelRow r) = .ok r := by
  obtain ⟨⟨kb⟩, hh, pos, h⟩ := r
  simp only [encodeKernelRow, List.append_assoc, decodeKernelRow]
  simp [bind, Except.bind, pure, Except.pure]

/-- C1: for every valid row of each of the three row kinds, decoding the
encoding of the row yields the row back unchanged. -/
theorem row_codec_roundtrip :
    (∀ r : TransactionOutputRowData, decodeOutputRow (encodeOutputRow r) = .ok r) ∧
    (∀ r : TransactionInputRowData, decodeInputRow (encodeInputRow r) = .ok r) ∧
    (∀ r : TransactionKernelRowData, decodeKernelRow (encodeKernelRow r) = .ok r) :=
  ⟨decodeOutputRow_encodeOutputRow, decodeInputRow_encodeInputRow,
    decodeKernelRow_encodeKernelRow⟩

/-- C2: the prunable output payload is an explicit tagged presence/absence
marker (`Option`), not a sentinel: an absent payload differs from every
present payload, the encodings of a pruned row and of the same row with any
present payload differ, and a pruned row round-trips through the codec. -/
theorem output_row_pruned_marker :
    (∀ p : TransactionOutput, (none : Option TransactionOutput) ≠ some p) ∧
    (∀ (r : TransactionOutputRowData) (p : TransactionOutput),
      encodeOutputRow { r with output := none } ≠
        encodeOutputRow { r with output := some p }) ∧
    (∀ r : TransactionOutputRowData,
      decodeOutputRow (encodeOutputRow { r with output := none }) =
        .ok { r with output := none }) := by
  refine ⟨fun p => by simp, ?_, ?_⟩
  · intro r p heq
    have h1 := decodeOutputRow_encodeOutputRow { r with output := none }
    have h2 := decodeOutputRow_encodeOutputRow { r with output := some p }
    rw [heq, h2] at h1
    simp at h1
  · intro r
    exact decodeOutputRow_encodeOutputRow { r with output := none }

/-- C3: each row kind has exactly the stated field set: two rows of a kind
are equal exactly when all the named fields agree, and every row is rebuilt
from precisely those fields. -/
theorem row_field_sets :
    (∀ r s : TransactionOutputRowData,
      r = s ↔ (r.output = s.output ∧ r.header_hash = s.header_hash ∧
        r.mmr_position = s.mmr_position ∧ r.hash = s.hash ∧
        r.witness_hash = s.witness_hash ∧ r.mined_height = s.mined_height)) ∧
    (∀ r s : TransactionInputRowData,
      r = s ↔ (r.input = s.input ∧ r.header_hash = s.header_hash ∧
        r.mmr_position = s.mmr_position ∧ r.hash = s.hash)) ∧
    (∀ r s : TransactionKernelRowData,
      r = s ↔ (r.kernel = s.kernel ∧ r.header_hash = s.header_hash ∧
        r.mmr_position = s.mmr_position ∧ r.hash = s.hash)) := by
  refine ⟨?_, ?_, ?_⟩ <;>
    (intro r s; cases r; cases s; constructor
     · intro h; cases h; simp
     · intro h; simp_all)

/-! ## Storage engine façade

Modelled from the spec: the LMDB-backed transactional façade
(`insert_block_rows`, `prune_output`, `highest_position`, rewind) lives in
the LMDB database module, which is not among the repository files here;
the definitions below follow §3–§4.5 of the spec. Each primary table is
kept as the list of its rows in insertion order; the secondary indices are
derived views of the primary tables (§4.2: indices are derived, never
authoritative). -/

/-- Modelled from the spec: the three entity kinds, each with its own MMR
position space. -/
inductive EntityKind where
  | output
  | input
  | kernel
deriving DecidableEq, Repr

/-- Modelled from the spec (§7): the storage error kinds. -/
inductive StorageError where
  | NotFound
  | PositionConflict
  | CorruptRecord
  | Conflict
  | IoFailure
deriving DecidableEq, Repr

/-- Modelled from the spec: the transactional table set's committed state —
the three primary tables, rows in insertion order. -/
structure DbState where
  outputs : List TransactionOutputRowData
  inputs : List TransactionInputRowData
  kernels : List TransactionKernelRowData
deriving DecidableEq, Repr

/-- Next free position over a list of assigned positions: one past the
largest assigned position, 0 when none is assigned. -/
def frontierOfPositions (ps : List Nat) : Nat :=
  ps.foldl (fun a p => max a (p + 1)) 0

/-- The positions currently assigned in one kind's MMR position space. -/
def DbState.positionsOf (st : DbState) : EntityKind → List Nat
  | .output => st.outputs.map (·.mmr_position)
  | .input => st.inputs.map (·.mmr_position)
  | .kernel => st.kernels.map (·.mmr_position)

/-- The next free position of one kind (the frontier used to assign the
next block's rows). -/
def frontier (k : EntityKind) (st : DbState) : Nat :=
  frontierOfPositions (st.positionsOf k)

/-- Modelled from the spec (§4.4): `highest_position(kind)`, the current
frontier — `none` when the kind has no rows yet. -/
def highest_position (k : EntityKind) (st : DbState) : Option Nat :=
  match st.positionsOf k with
  | [] => none
  | _ => some (frontier k st - 1)

/-- Modelled from the spec: a supplied output row before the façade assigns
its block and position (§4.4: the caller supplies fully validated rows). -/
structure OutputRowInput where
  output : Option TransactionOutput
  hash : HashOutput
  witness_hash : HashOutput
  mined_height : Nat
deriving DecidableEq, Repr

/-- Modelled from the spec: a supplied input row before position assignment. -/
structure InputRowInput where
  input : TransactionInput
  hash : HashOutput
deriving DecidableEq, Repr

/-- Modelled from the spec: a supplied kernel row before position assignment. -/
structure KernelRowInput where
  kernel : TransactionKernel
  hash : HashOutput
deriving DecidableEq, Repr

/-- Modelled from the spec: one `insert_block_rows` call's arguments. -/
structure InsertCall where
  header_hash : HashOutput
  outputs : List OutputRowInput
  inputs : List InputRowInput
  kernels : List KernelRowInput
deriving DecidableEq, Repr

/-- Assigns consecutive positions, starting at the given frontier, to the
supplied output rows of one block, in insertion order. -/
def assignOutputs (hh : HashOutput) : Nat → List OutputRowInput → List TransactionOutputRowData
  | _, [] => []
  | f, o :: rest =>
    ⟨o.output, hh, f, o.hash, o.witness_hash, o.mined_height⟩ :: assignOutputs hh (f + 1) rest

/-- Assigns consecutive positions to the supplied input rows of one block. -/
def assignInputs (hh : HashOutput) : Nat → List InputRowInput → List TransactionInputRowData
  | _, [] => []
  | f, i :: rest => ⟨i.input, hh, f, i.hash⟩ :: assignInputs hh (f + 1) rest

/-- Assigns consecutive positions to the supplied kernel rows of one block. -/
def assignKernels (hh : HashOutput) : Nat → List KernelRowInput → List TransactionKernelRowData
  | _, [] => []
  | f, k :: rest => ⟨k.kernel, hh, f, k.hash⟩ :: assignKernels hh (f + 1) rest

/-- Modelled from the spec (§4.4): `insert_block_rows` — errors with
`PositionConflict` when a supplied row already exists at an assigned hash,
otherwise appends every supplied row with the next free positions of its
kind, in insertion order, atomically. -/
def insert_block_rows (c : InsertCall) (st : DbState) : Except StorageError DbState :=
  if c.outputs.any (fun o => st.outputs.any (fun r => r.hash == o.hash)) ||
      c.inputs.any (fun i => st.inputs.any (fun r => r.hash == i.hash)) ||
      c.kernels.any (fun k => st.kernels.any (fun r => r.hash == k.hash)) then
    .error .PositionConflict
  else
    .ok
      { outputs := st.outputs ++ assignOutputs c.header_hash (frontier .output st) c.outputs,
        inputs := st.inputs ++ assignInputs c.header_hash (frontier .input st) c.inputs,
        kernels := st.kernels ++ assignKernels c.header_hash (frontier .kernel st) c.kernels }

/-- The committed state after one `insert_block_rows` call: a failed call
is one aborted transaction and leaves the committed state unchanged. -/
def applyInsert (st : DbState) (c : InsertCall) : DbState :=
  match insert_block_rows c st with
  | .ok st' => st'
  | .error _ => st

/-- The committed state after a sequence of `insert_block_rows` calls. -/
def applyInserts (calls : List InsertCall) (st : DbState) : DbState :=
  calls.foldl applyInsert st

/-- The per-row effect of pruning: a matching row keeps every field but its
`output` payload, which becomes absent; other rows are untouched. -/
def pruneFun (h : HashOutput) (r : TransactionOutputRowData) : TransactionOutputRowData :=
  if r.hash = h then { r with output := none } else r

/-- Modelled from the spec (§4.4): `prune_output(hash)` — clears the
`output` payload of the row with the given hash, keeping every other field;
a no-op on an already pruned row; `NotFound` when no row has the hash. -/
def prune_output (h : HashOutput) (st : DbState) : Except StorageError DbState :=
  if st.outputs.any (fun r => r.hash == h) then
    .ok { st with outputs := st.outputs.map (pruneFun h) }
  else
    .error .NotFound

/-- Modelled from the spec (§4.5): the per-kind position watermarks of a
rewind — the first position each kind's table received at block A+1. -/
structure RewindWatermark where
  outputs : Nat
  inputs : Nat
  kernels : Nat
deriving DecidableEq, Repr

/-- Modelled from the spec (§4.5): the unwind step deletes, for every kind,
all rows whose position is at or above the watermark. -/
def rewind_to (w : RewindWatermark) (st : DbState) : DbState :=
  { outputs := st.outputs.filter (fun r => r.mmr_position < w.outputs),
    inputs := st.inputs.filter (fun r => r.mmr_position < w.inputs),
    kernels := st.kernels.filter (fun r => r.mmr_position < w.kernels) }

/-- Replays the new blocks in height order inside the reorg transaction;
an injected `failAt = some i` simulates an interruption right before block
`i`, and any failing insert aborts the whole transaction. -/
def applyBlocks : List InsertCall → Nat → Option Nat → DbState → Except StorageError DbState
  | [], _, _, st => .ok st
  | c :: rest, i, failAt, st =>
    if failAt = some i then .error .IoFailure
    else
      match insert_block_rows c st with
      | .error e => .error e
      | .ok st' => applyBlocks rest (i + 1) failAt st'

/-- Modelled from the spec (§4.5): the whole unwind-then-apply sequence of
one reorg, computed inside a single uncommitted transaction. -/
def reorgAttempt (w : RewindWatermark) (blocks : List InsertCall) (failAt : Option Nat)
    (st : DbState) : Except StorageError DbState :=
  applyBlocks blocks 0 failAt (rewind_to w st)

/-- Modelled from the spec (§4.5, §5): the reorg commit — the transaction's
result is committed only when every step succeeded; any failure aborts it
and the committed state stays the pre-reorg state. Returns the committed
state and the call's outcome. -/
def reorg (w : RewindWatermark) (blocks : List InsertCall) (failAt : Option Nat)
    (st : DbState) : DbState × Except StorageError Unit :=
  match reorgAttempt w blocks failAt st with
  | .ok st' => (st', .ok ())
  | .error e => (st, .error e)

/-- Derived secondary index (§4.2, §6): position → primary key, per kind. -/
def positionIndex (st : DbState) :
    List (Nat × HashOutput) × List (Nat × HashOutput) × List (Nat × HashOutput) :=
  (st.outputs.map (fun r => (r.mmr_position, r.hash)),
    st.inputs.map (fun r => (r.mmr_position, r.hash)),
    st.kernels.map (fun r => (r.mmr_position, r.hash)))

/-- Derived secondary index (§4.2, §6): (owning block, position) → primary
key, per kind. -/
def blockIndex (st : DbState) :
    List (HashOutput × Nat × HashOutput) × List (HashOutput × Nat × HashOutput) ×
      List (HashOutput × Nat × HashOutput) :=
  (st.outputs.map (fun r => (r.header_hash, r.mmr_position, r.hash)),
    st.inputs.map (fun r => (r.header_hash, r.mmr_position, r.hash)),
    st.kernels.map (fun r => (r.header_hash, r.mmr_position, r.hash)))

/-- Row counts of the three primary tables. -/
def rowCounts (st : DbState) : Nat × Nat × Nat :=
  (st.outputs.length, st.inputs.length, st.kernels.length)

theorem frontierOfPositions_foldl (ps : List Nat) (i : Nat) :
    ps.foldl (fun a p => max a (p + 1)) i = max i (frontierOfPositions ps) := by
  induction ps generalizing i with
  | nil => simp [frontierOfPositions]
  | cons p rest ih =>
    simp only [frontierOfPositions, List.foldl_cons] at *
    rw [ih, ih (max 0 (p + 1))]
    omega

theorem frontierOfPositions_append (l l' : List Nat) :
    frontierOfPositions (l ++ l') = max (frontierOfPositions l) (frontierOfPositions l') := by
  rw [frontierOfPositions, List.foldl_append, frontierOfPositions_foldl]
  rfl

theorem frontierOfPositions_range' (f n : Nat) :
    frontierOfPositions (List.range' f n) = if n = 0 then 0 else f + n := by
  induction n generalizing f with
  | zero => simp [frontierOfPositions]
  | succ n ih =>
    have hcons : List.range' f (n + 1) = f :: List.range' (f + 1) n := by
      simp [List.range']
    rw [hcons, frontierOfPositions, List.foldl_cons, frontierOfPositions_foldl, ih]
    by_cases hn : n = 0
    · simp [hn]
    · simp [hn]
      omega

theorem frontierOfPositions_append_range' (ps : List Nat) (n : Nat) :
    frontierOfPositions (ps ++ List.range' (frontierOfPositions ps) n) =
      frontierOfPositions ps + n := by
  rw [frontierOfPositions_append, frontierOfPositions_range']
  split <;> omega

theorem range'_add_append (s m n : Nat) :
    List.range' s m ++ List.range' (s + m) n = List.range' s (m + n) := by
  rw [List.range'_append_1, Nat.add_comm n m]

theorem assignOutputs_length (hh : HashOutput) (f : Nat) (l : List OutputRowInput) :
    (assignOutputs hh f l).length = l.length := by
  induction l generalizing f with
  | nil => simp [assignOutputs]
  | cons o rest ih => simp [assignOutputs, ih]

theorem assignInputs_length (hh : HashOutput) (f : Nat) (l : List InputRowInput) :
    (assignInputs hh f l).length = l.length := by
  induction l generalizing f with
  | nil => simp [assignInputs]
  | cons i rest ih => simp [assignInputs, ih]

theorem assignKernels_length (hh : HashOutput) (f : Nat) (l : List KernelRowInput) :
    (assignKernels hh f l).length = l.length := by
  induction l generalizing f with
  | nil => simp [assignKernels]
  | cons k rest ih => simp [assignKernels, ih]

theorem assignOutputs_positions (hh : HashOutput) (f : Nat) (l : List OutputRowInput) :
    (assignOutputs hh f l).map (·.mmr_position) = List.range' f l.length := by
  induction l generalizing f with
  | nil => simp [assignOutputs]
  | cons o rest ih => simp [assignOutputs, ih, List.range']

theorem assignInputs_positions (hh : HashOutput) (f : Nat) (l : List InputRowInput) :
    (assignInputs hh f l).map (·.mmr_position) = List.range' f l.length := by
  induction l generalizing f with
  | nil => simp [assignInputs]
  | cons i rest ih => simp [assignInputs, ih, List.range']

theorem assignKernels_positions (hh : HashOutput) (f : Nat) (l : List KernelRowInput) :
    (assignKernels hh f l).map (·.mmr_position) = List.range' f l.length := by
  induction l generalizing f with
  | nil => simp [assignKernels]
  | cons k rest ih => simp [assignKernels, ih, List.range']

theorem frontier_output_append (st st' : DbState) (A : List TransactionOutputRowData)
    (h : st'.outputs = st.outputs ++ A)
    (hm : A.map (·.mmr_position) = List.range' (frontier .output st) A.length) :
    frontier .output st' = frontier .output st + A.length := by
  simp only [frontier, DbState.positionsOf] at *
  rw [h, List.map_append, hm]
  exact frontierOfPositions_append_range' _ _

theorem frontier_input_append (st st' : DbState) (B : List TransactionInputRowData)
    (h : st'.inputs = st.inputs ++ B)
    (hm : B.map (·.mmr_position) = List.range' (frontier .input st) B.length) :
    frontier .input st' = frontier .input st + B.length := by
  simp only [frontier, DbState.positionsOf] at *
  rw [h, List.map_append, hm]
  exact frontierOfPositions_append_range' _ _

theorem frontier_kernel_append (st st' : DbState) (C : List TransactionKernelRowData)
    (h : st'.kernels = st.kernels ++ C)
    (hm : C.map (·.mmr_position) = List.range' (frontier .kernel st) C.length) :
    frontier .kernel st' = frontier .kernel st + C.length := by
  simp only [frontier, DbState.positionsOf] at *
  rw [h, List.map_append, hm]
  exact frontierOfPositions_append_range' _ _

theorem applyInsert_spec (st : DbState) (c : InsertCall) :
    ∃ A B C, (applyInsert st c).outputs = st.outputs ++ A ∧
      (applyInsert st c).inputs = st.inputs ++ B ∧
      (applyInsert st c).kernels = st.kernels ++ C ∧
      A.map (·.mmr_position) = List.range' (frontier .output st) A.length ∧
      B.map (·.mmr_position) = List.range' (frontier .input st) B.length ∧
      C.map (·.mmr_position) = List.range' (frontier .kernel st) C.length := by
  cases hd : (c.outputs.any (fun o => st.outputs.any fun r => r.hash == o.hash) ||
      c.inputs.any (fun i => st.inputs.any fun r => r.hash == i.hash) ||
      c.kernels.any (fun k => st.kernels.any fun r => r.hash == k.hash)) with
  | true =>
    refine ⟨[], [], [], ?_, ?_, ?_, by simp, by simp, by simp⟩ <;>
      simp [applyInsert, insert_block_rows, hd]
  | false =>
    refine ⟨assignOutputs c.header_hash (frontier .output st) c.outputs,
      assignInputs c.header_hash (frontier .input st) c.inputs,
      assignKernels c.header_hash (frontier .kernel st) c.kernels,
      ?_, ?_, ?_, ?_, ?_, ?_⟩
    · simp [applyInsert, insert_block_rows, hd]
    · simp [applyInsert, insert_block_rows, hd]
    · simp [applyInsert, insert_block_rows, hd]
    · rw [assignOutputs_length]
      exact assignOutputs_positions _ _ _
    · rw [assignInputs_length]
      exact assignInputs_positions _ _ _
    · rw [assignKernels_length]
      exact assignKernels_positions _ _ _

theorem applyInserts_spec (calls : List InsertCall) (st : DbState) :
    ∃ A B C, (applyInserts calls st).outputs = st.outputs ++ A ∧
      (applyInserts calls st).inputs = st.inputs ++ B ∧
      (applyInserts calls st).kernels = st.kernels ++ C ∧
      A.map (·.mmr_position) = List.range' (frontier .output st) A.length ∧
      B.map (·.mmr_position) = List.range' (frontier .input st) B.length ∧
      C.map (·.mmr_position) = List.range' (frontier .kernel st) C.length ∧
      frontier .output (applyInserts calls st) = frontier .output st + A.length ∧
      frontier .input (applyInserts calls st) = frontier .input st + B.length ∧
      frontier .kernel (applyInserts calls st) = frontier .kernel st + C.length := by
  induction calls generalizing st with
  | nil =>
    exact ⟨[], [], [], by simp [applyInserts], by simp [applyInserts],
      by simp [applyInserts], by simp, by simp, by simp,
      by simp [applyInserts], by simp [applyInserts], by simp [applyInserts]⟩
  | cons c rest ih =>
    obtain ⟨A1, B1, C1, hoA, hoB, hoC, hmA, hmB, hmC⟩ := applyInsert_spec st c
    have hfA := frontier_output_append st (applyInsert st c) A1 hoA hmA
    have hfB := frontier_input_append st (applyInsert st c) B1 hoB hmB
    have hfC := frontier_kernel_append st (applyInsert st c) C1 hoC hmC
    obtain ⟨A2, B2, C2, hoA2, hoB2, hoC2, hmA2, hmB2, hmC2, hfA2, hfB2, hfC2⟩ :=
      ih (applyInsert st c)
    have hstep : applyInserts (c :: rest) st = applyInserts rest (applyInsert st c) := by
      simp [applyInserts]
    refine ⟨A1 ++ A2, B1 ++ B2, C1 ++ C2, ?_, ?_, ?_, ?_, ?_, ?_, ?_, ?_, ?_⟩
    · rw [hstep, hoA2, hoA, List.append_assoc]
    · rw [hstep, hoB2, hoB, List.append_assoc]
    · rw [hstep, hoC2, hoC, List.append_assoc]
    · rw [List.map_append, hmA, hmA2, hfA, List.length_append, range'_add_append]
    · rw [List.map_append, hmB, hmB2, hfB, List.length_append, range'_add_append]
    · rw [List.map_append, hmC, hmC2, hfC, List.length_append, range'_add_append]
    · rw [hstep, hfA2, hfA, List.length_append]; omega
    · rw [hstep, hfB2, hfB, List.length_append]; omega
    · rw [hstep, hfC2, hfC, List.length_append]; omega

/-- C4: over any sequence of `insert_block_rows` calls, each kind's table
only grows by new rows whose positions are exactly the dense contiguous
range above the initial frontier — no gaps, no repeats, strictly increasing
with insertion order — and the frontier (`highest_position`, §4.4) advances
by exactly the number of rows of that kind inserted. -/
theorem insert_positions_dense :
    (∀ (calls : List InsertCall) (st : DbState),
      ∃ A B C, (applyInserts calls st).outputs = st.outputs ++ A ∧
        (applyInserts calls st).inputs = st.inputs ++ B ∧
        (applyInserts calls st).kernels = st.kernels ++ C ∧
        A.map (·.mmr_position) = List.range' (frontier .output st) A.length ∧
        B.map (·.mmr_position) = List.range' (frontier .input st) B.length ∧
        C.map (·.mmr_position) = List.range' (frontier .kernel st) C.length ∧
        frontier .output (applyInserts calls st) = frontier .output st + A.length ∧
        frontier .input (applyInserts calls st) = frontier .input st + B.length ∧
        frontier .kernel (applyInserts calls st) = frontier .kernel st + C.length ∧
        (A.map (·.mmr_position)).Pairwise (· < ·) ∧
        (B.map (·.mmr_position)).Pairwise (· < ·) ∧
        (C.map (·.mmr_position)).Pairwise (· < ·) ∧
        (A.map (·.mmr_position)).Nodup ∧
        (B.map (·.mmr_position)).Nodup ∧
        (C.map (·.mmr_position)).Nodup) ∧
    (∀ (k : EntityKind) (st : DbState),
      highest_position k st =
        match st.positionsOf k with
        | [] => none
        | _ => some (frontier k st - 1)) := by
  constructor
  · intro calls st
    obtain ⟨A, B, C, h1, h2, h3, h4, h5, h6, h7, h8, h9⟩ := applyInserts_spec calls st
    refine ⟨A, B, C, h1, h2, h3, h4, h5, h6, h7, h8, h9, ?_, ?_, ?_, ?_, ?_, ?_⟩
    · rw [h4]; exact List.pairwise_lt_range' _ _
    · rw [h5]; exact List.pairwise_lt_range' _ _
    · rw [h6]; exact List.pairwise_lt_range' _ _
    · rw [h4]; exact List.nodup_range' _ _
    · rw [h5]; exact List.nodup_range' _ _
    · rw [h6]; exact List.nodup_range' _ _
  · intro k st
    rfl

theorem pruneFun_hash (h : HashOutput) (r : TransactionOutputRowData) :
    (pruneFun h r).hash = r.hash := by
  unfold pruneFun
  split <;> rfl

theorem pruneFun_idem (h : HashOutput) (r : TransactionOutputRowData) :
    pruneFun h (pruneFun h r) = pruneFun h r := by
  by_cases hr : r.hash = h <;> simp [pruneFun, hr]

theorem pruneFun_frame (h : HashOutput) (r : TransactionOutputRowData) :
    (pruneFun h r).header_hash = r.header_hash ∧
      (pruneFun h r).mmr_position = r.mmr_position ∧
      (pruneFun h r).hash = r.hash ∧
      (pruneFun h r).witness_hash = r.witness_hash ∧
      (pruneFun h r).mined_height = r.mined_height := by
  unfold pruneFun
  split <;> exact ⟨rfl, rfl, rfl, rfl, rfl⟩

/-- C6: `prune_output` is idempotent: it succeeds exactly when the hash is a
stored output hash and fails with `NotFound` otherwise; a successful call
clears the matching row's payload, leaves every other field and the other
tables unchanged, and pruning again (in particular pruning an already
pruned row) returns `Ok` with the state unchanged. -/
theorem prune_output_idempotent :
    ∀ (h : HashOutput) (st : DbState),
      ((∃ st', prune_output h st = .ok st') ↔ ∃ r ∈ st.outputs, r.hash = h) ∧
      (prune_output h st = .error .NotFound ↔ ∀ r ∈ st.outputs, r.hash ≠ h) ∧
      (∀ st', prune_output h st = .ok st' →
        prune_output h st' = .ok st' ∧
        st'.outputs = st.outputs.map (pruneFun h) ∧
        st'.inputs = st.inputs ∧
        st'.kernels = st.kernels ∧
        (∀ r ∈ st'.outputs, r.hash = h → r.output = none) ∧
        st'.outputs.map
            (fun r => (r.header_hash, r.mmr_position, r.hash, r.witness_hash, r.mined_height)) =
          st.outputs.map
            (fun r => (r.header_hash, r.mmr_position, r.hash, r.witness_hash, r.mined_height))) := by
  intro h st
  have hiff : (st.outputs.any (fun r => r.hash == h) = true) ↔
      ∃ r ∈ st.outputs, r.hash = h := by
    simp [List.any_eq_true]
  refine ⟨?_, ?_, ?_⟩
  · cases hcond : st.outputs.any (fun r => r.hash == h) with
    | false =>
      refine iff_of_false ?_ fun hc => by simp [hiff.mpr hc] at hcond
      rintro ⟨st', hst'⟩
      rw [prune_output, if_neg (by simp [hcond])] at hst'
      exact absurd hst' (by simp)
    | true =>
      refine iff_of_true
        ⟨{ st with outputs := st.outputs.map (pruneFun h) }, ?_⟩ (hiff.mp hcond)
      rw [prune_output, if_pos hcond]
  · cases hcond : st.outputs.any (fun r => r.hash == h) with
    | false =>
      refine iff_of_true ?_ ?_
      · rw [prune_output, if_neg (by simp [hcond])]
      · intro r hr hrh
        simp [hiff.mpr ⟨r, hr, hrh⟩] at hcond
    | true =>
      refine iff_of_false ?_ fun hall => ?_
      · rw [prune_output, if_pos hcond]
        simp
      · obtain ⟨r, hr, hrh⟩ := hiff.mp hcond
        exact hall r hr hrh
  · intro st' hok
    have hcond : st.outputs.any (fun r => r.hash == h) = true := by
      by_contra hco
      rw [prune_output, if_neg hco] at hok
      exact absurd hok (by simp)
    rw [prune_output, if_pos hcond] at hok
    injection hok with h1
    subst h1
    have hcond' : (st.outputs.map (pruneFun h)).any (fun r => r.hash == h) = true := by
      rw [List.any_map]
      have hsame : ((fun r : TransactionOutputRowData => r.hash == h) ∘ pruneFun h) =
          fun r => r.hash == h := by
        funext r
        simp [Function.comp, pruneFun_hash]
      rw [hsame]
      exact hcond
    refine ⟨?_, rfl, rfl, rfl, ?_, ?_⟩
    · rw [prune_output, if_pos hcond']
      congr 2
      rw [List.map_map]
      exact List.map_congr_left fun r _ => pruneFun_idem h r
    · intro r hr hrh
      simp only [List.mem_map] at hr
      obtain ⟨r0, hr0, hre⟩ := hr
      subst hre
      have hr0h : r0.hash = h := by rwa [pruneFun_hash] at hrh
      simp [pruneFun, hr0h]
    · rw [List.map_map]
      refine List.map_congr_left fun r _ => ?_
      obtain ⟨f1, f2, f3, f4, f5⟩ := pruneFun_frame h r
      simp [Function.comp, f1, f2, f3, f4, f5]

/-- C5: a reorg is a single atomic commit: whenever the unwind-then-apply
transaction fails at any step (an insert error or a simulated interruption),
the committed state is exactly the pre-reorg state — row counts and both
derived secondary indices included — and the only other possible outcome is
the fully applied reorg; no partially applied rewind is observable. -/
theorem reorg_atomic :
    ∀ (w : RewindWatermark) (blocks : List InsertCall) (failAt : Option Nat) (st : DbState),
      (∀ e, (reorg w blocks failAt st).2 = .error e →
        (reorg w blocks failAt st).1 = st ∧
        rowCounts (reorg w blocks failAt st).1 = rowCounts st ∧
        positionIndex (reorg w blocks failAt st).1 = positionIndex st ∧
        blockIndex (reorg w blocks failAt st).1 = blockIndex st) ∧
      ((reorg w blocks failAt st).1 = st ∨
        (reorgAttempt w blocks failAt st = .ok (reorg w blocks failAt st).1 ∧
          (reorg w blocks failAt st).2 = .ok ())) := by
  intro w blocks failAt st
  cases hr : reorgAttempt w blocks failAt st with
  | ok st' =>
    constructor
    · intro e he
      simp [reorg, hr] at he
    · right
      simp [reorg, hr]
  | error e =>
    constructor
    · intro e' _
      simp [reorg, hr]
    · left
      simp [reorg, hr]

/-! ## Broadcast strategy (src/comms/dht/src/outbound/broadcast_strategy.rs)

The routing collaborator's peer-selection policy. None of the storage-core
definitions above refers to these types: the storage façade is defined
before and independently of them. -/

/-- Embeds `NodeId` (tari_comms peer_manager), abstracted as its byte
content (its module is not among the files here). -/
structure NodeId where
  bytes : List Nat
deriving DecidableEq, Repr

/-- Embeds `CommsPublicKey` (tari_comms types), abstracted as its byte
content (its module is not among the files here). -/
structure CommsPublicKey where
  bytes : List Nat
deriving DecidableEq, Repr

/-- Embeds `struct BroadcastClosestRequest` field for field. -/
structure BroadcastClosestRequest where
  n : Nat
  node_id : NodeId
  excluded_peers : List CommsPublicKey
deriving DecidableEq, Repr

/-- Embeds `enum BroadcastStrategy` constructor for constructor. -/
inductive BroadcastStrategy where
  | DirectNodeId (node_id : NodeId)
  | DirectPublicKey (pk : CommsPublicKey)
  | Flood
  | Closest (req : BroadcastClosestRequest)
  | Random (n : Nat)
deriving DecidableEq, Repr

/-- Embeds `BroadcastStrategy::direct_node_id`. -/
def BroadcastStrategy.direct_node_id : BroadcastStrategy → Option NodeId
  | .DirectNodeId node_id => some node_id
  | _ => none

/-- Embeds `BroadcastStrategy::direct_public_key`. -/
def BroadcastStrategy.direct_public_key : BroadcastStrategy → Option CommsPublicKey
  | .DirectPublicKey pk => some pk
  | _ => none

/-- C8: the broadcast/selection policy is a tagged variant type with exactly
the five stated alternatives — every value is of exactly one of the five
forms, and the closest-peers form carries a count, a target node id and an
excluded-peer list and nothing else. The storage-core definitions above
take no `BroadcastStrategy` anywhere, so no storage operation can depend
on it. -/
theorem broadcast_strategy_variants :
    ∀ s : BroadcastStrategy,
      ((∃ nid, s = .DirectNodeId nid) ∨ (∃ pk, s = .DirectPublicKey pk) ∨
        s = .Flood ∨ (∃ r, s = .Closest r) ∨ (∃ n, s = .Random n)) ∧
      (∀ r : BroadcastClosestRequest, s = .Closest r →
        r = ⟨r.n, r.node_id, r.excluded_peers⟩) ∧
      (∀ nid, s = .DirectNodeId nid → s.direct_node_id = some nid) ∧
      (∀ pk, s = .DirectPublicKey pk → s.direct_public_key = some pk) := by
  intro s
  refine ⟨?_, ?_, ?_, ?_⟩
  · cases s with
    | DirectNodeId nid => exact Or.inl ⟨nid, rfl⟩
    | DirectPublicKey pk => exact Or.inr (Or.inl ⟨pk, rfl⟩)
    | Flood => exact Or.inr (Or.inr (Or.inl rfl))
    | Closest r => exact Or.inr (Or.inr (Or.inr (Or.inl ⟨r, rfl⟩)))
    | Random n => exact Or.inr (Or.inr (Or.inr (Or.inr ⟨n, rfl⟩)))
  · intro r _
    cases r
    rfl
  · intro nid hs
    subst hs
    rfl
  · intro pk hs
    subst hs
    rfl

/-- C9: Network name parsing round-trips and is case-insensitive: every
network's key string parses back to that network; a string parses
successfully exactly when its lowercase form is one of the three key
strings; every other string yields a `ConfigurationError`. -/
theorem network_from_str_roundtrip :
    (∀ n : Network, Network.from_str n.as_key_str = .ok n) ∧
    (∀ s : String,
      (∃ n, Network.from_str s = .ok n) ↔
        (toLowerAscii s = "mainnet" ∨ toLowerAscii s = "testnet" ∨
          toLowerAscii s = "localnet")) ∧
    (∀ s : String,
      (¬(toLowerAscii s = "mainnet" ∨ toLowerAscii s = "testnet" ∨
          toLowerAscii s = "localnet")) →
        ∃ e : ConfigurationError, Network.from_str s = .error e) := by
  refine ⟨?_, ?_, ?_⟩
  · intro n
    cases n <;> rfl
  · intro s
    by_cases h1 : toLowerAscii s = "mainnet"
    · simp [Network.from_str, h1]
    · by_cases h2 : toLowerAscii s = "testnet"
      · simp [Network.from_str, h1, h2]
      · by_cases h3 : toLowerAscii s = "localnet"
        · simp [Network.from_str, h1, h2, h3]
        · simp [Network.from_str, h1, h2, h3]
  · intro s h
    push_neg at h
    obtain ⟨h1, h2, h3⟩ := h
    exact ⟨⟨"network", some s, "Invalid network option: " ++ toLowerAscii s⟩,
      by simp [Network.from_str, h1, h2, h3]⟩

/-- C10: Network byte conversion round-trips, and every byte other than
0xaa, 0xbb, 0xcc is rejected with an error. -/
theorem network_byte_roundtrip :
    (∀ n : Network, Network.try_from_byte n.as_byte = .ok n) ∧
    (∀ b : Nat, b ≠ 0xaa → b ≠ 0xbb → b ≠ 0xcc →
      ∃ e : ConfigurationError, Network.try_from_byte b = .error e) := by
  refine ⟨?_, ?_⟩
  · intro n
    cases n <;> rfl
  · intro b h1 h2 h3
    exact ⟨⟨"network", some (toString b), "Invalid network option: " ++ toString b⟩,
      by simp [Network.try_from_byte, Network.as_byte, h1, h2, h3]⟩

/-- C7: the current-network cell is initialized at most once and is
immutable thereafter: over any sequence of `set_current` calls starting
from the empty cell, at most one call returns `Ok`; a successful
`set_current n` fills the cell with `n`; with the cell filled, every
further `set_current` returns `Err` and leaves the cell unchanged, and
`get_current_or_user_setting_or_default` returns `n` whatever the
environment variable holds. -/
theorem network_current_set_once :
    (∀ calls : List Network,
      ((Network.run_set_calls calls none).1.count true) ≤ 1) ∧
    (∀ n : Network, Network.set_current n none = (.ok (), some n)) ∧
    (∀ n m : Network, Network.set_current m (some n) = (.error m, some n)) ∧
    (∀ (n : Network) (calls : List Network),
      (Network.run_set_calls calls (some n)).1.count true = 0 ∧
        (Network.run_set_calls calls (some n)).2 = some n) ∧
    (∀ (n : Network) (env : Option String),
      Network.get_current_or_user_setting_or_default (some n) env = n) := by
  refine ⟨?_, ?_, ?_, ?_, ?_⟩
  · intro calls
    cases calls with
    | nil => simp [Network.run_set_calls]
    | cons n rest =>
      have h := Network.run_set_calls_filled rest n
      simp [Network.run_set_calls, Network.set_current, List.count_cons, h.1]
  · intro n; rfl
  · intro n m; rfl
  · intro n calls; exact Network.run_set_calls_filled calls n
  · intro n env; rfl

end Tari
